import Mathlib

/-!
Shallow embedding of `rag_utils.py` (feedback-driven retrieval-query
generation and lexical spec ranking) together with proofs of the spec's
claims about it.

Python strings are modelled as Lean `String`s (lists of unicode
characters); `str.lower`/`str.strip` are modelled on the ASCII fragment
that the code exercises; Python `list`s are Lean `List`s; Python `dict`s
are association lists in insertion order with update-in-place semantics;
Python slices `l[:k]` (including negative `k`) are modelled by `pySlice`.
-/

set_option maxRecDepth 4000

namespace RagUtils

/-- ASCII lowercase of one character, the fragment of Python `str.lower`
exercised by the code (tokens only contain `[A-Za-z0-9가-힣_]`). -/
def lowerChar (c : Char) : Char :=
  if 65 ≤ c.toNat ∧ c.toNat ≤ 90 then Char.ofNat (c.toNat + 32) else c

/-- Python `str.lower`. -/
def pyLower (s : String) : String :=
  String.mk (s.data.map lowerChar)

/-- The ASCII whitespace characters stripped by Python `str.strip()`. -/
def isSpace (c : Char) : Bool :=
  c.toNat == 32 || c.toNat == 9 || c.toNat == 10 || c.toNat == 13 ||
    c.toNat == 11 || c.toNat == 12

/-- Drop leading and trailing whitespace from a character list. -/
def stripCh (l : List Char) : List Char :=
  ((l.dropWhile isSpace).reverse.dropWhile isSpace).reverse

/-- Python `str.strip()`: drop leading and trailing whitespace. -/
def pyStrip (s : String) : String :=
  String.mk (stripCh s.data)

/-- A character list with no leading and no trailing whitespace. -/
def noEdgeSpace (l : List Char) : Prop :=
  (∀ c, l.head? = some c → isSpace c = false)
    ∧ (∀ c, l.getLast? = some c → isSpace c = false)

/-- `needle` occurs as a contiguous sublist of `hay` (char-level substring). -/
def isSubChars (needle : List Char) : List Char → Bool
  | [] => needle.isEmpty
  | c :: t => needle.isPrefixOf (c :: t) || isSubChars needle t

/-- Python `needle in hay` on strings. -/
def strContains (hay needle : String) : Bool :=
  isSubChars needle.data hay.data

/-- Python `" ".join(l)`. -/
def joinSpace : List String → String
  | [] => ""
  | [x] => x
  | x :: y :: t => x ++ " " ++ joinSpace (y :: t)

/-- Python `l[:k]`, including negative-`k` semantics
(`l[:-n]` is all but the last `n` elements). -/
def pySlice {α : Type} (k : Int) (l : List α) : List α :=
  if k < 0 then l.take (l.length - (-k).toNat) else l.take k.toNat

/-- First-occurrence deduplication (Python `list(dict.fromkeys(l))`),
with an explicit `seen` accumulator. -/
def dedupFirstAux : List String → List String → List String
  | _, [] => []
  | seen, x :: xs =>
    if x ∈ seen then dedupFirstAux seen xs
    else x :: dedupFirstAux (x :: seen) xs

/-- Python `list(dict.fromkeys(l))`: keep the first occurrence of each
element, in order. -/
def dedupFirst (l : List String) : List String :=
  dedupFirstAux [] l

/-- Character class of the token regex `[A-Za-z0-9가-힣_]`. -/
def isWordChar (c : Char) : Bool :=
  (65 ≤ c.toNat && c.toNat ≤ 90) || (97 ≤ c.toNat && c.toNat ≤ 122) ||
    (48 ≤ c.toNat && c.toNat ≤ 57) ||
    (0xAC00 ≤ c.toNat && c.toNat ≤ 0xD7A3) || c.toNat == 95

/-- Maximal runs of word characters, fuelled to keep the recursion
structural (`fuel ≥ length` suffices since each step consumes a char). -/
def tokenRunsAux : Nat → List Char → List (List Char)
  | 0, _ => []
  | _ + 1, [] => []
  | fuel + 1, c :: cs =>
    if isWordChar c then
      (c :: cs.takeWhile isWordChar) :: tokenRunsAux fuel (cs.dropWhile isWordChar)
    else
      tokenRunsAux fuel cs

/-- All maximal word-character runs of a character list. -/
def tokenRuns (l : List Char) : List (List Char) :=
  tokenRunsAux l.length l

/-- The stopword set `_STOP` of the source, verbatim. -/
def STOP : List String :=
  ["the", "and", "for", "with", "that", "this", "from", "into", "your",
   "have", "has", "are", "was", "were", "will", "shall", "should", "must",
   "may", "not", "but", "can", "could", "to", "of", "in", "on", "by", "as",
   "at", "it", "or", "be", "is", "a", "an", "we", "you", "they", "their",
   "our", "its", "over", "under", "more", "less", "than", "such",
   "spec", "specs", "some", "any", "many", "various", "thing", "things",
   "item", "items", "example", "examples", "policy", "policies",
   "requirement", "requirements", "group", "groups", "text", "texts",
   "및", "그리고", "또는", "그러나", "하지만", "등", "이", "가", "을", "를",
   "은", "는", "에", "의", "로", "으로", "에서", "까지", "마다", "하여",
   "하고", "한다", "수", "있는", "없는", "대한", "대한", "관련", "위한"]

/-- Python `str.isdigit` restricted to the ASCII digits the token
character class admits. -/
def pyIsDigit (s : String) : Bool :=
  s.length != 0 && s.data.all (fun c => 48 ≤ c.toNat && c.toNat ≤ 57)

/-- `_tokens` of the source: regex findall of `[A-Za-z0-9가-힣_]{2,}`
(maximal runs of length ≥ 2), lowercased, then stopwords, pure-digit
tokens and tokens shorter than 2 characters removed. -/
def pyTokens (s : String) : List String :=
  (((tokenRuns s.data).filter (fun r => 2 ≤ r.length)).map
      (fun r => String.mk (r.map lowerChar))).filter
    (fun t => !STOP.contains t && !pyIsDigit t && !(t.length < 2))

/-- Strict lexicographic order on character lists by unicode code point
(Python string `<`). -/
def lexLtCh : List Char → List Char → Bool
  | [], [] => false
  | [], _ :: _ => true
  | _ :: _, [] => false
  | a :: as, b :: bs =>
    if a.toNat < b.toNat then true
    else if a.toNat = b.toNat then lexLtCh as bs
    else false

/-- Python `a < b` on strings. -/
def strLtB (a b : String) : Bool :=
  lexLtCh a.data b.data

theorem lexLtCh_trichotomy :
    ∀ (a b : List Char), lexLtCh a b = true ∨ lexLtCh b a = true ∨ a = b
  | [], [] => Or.inr (Or.inr rfl)
  | [], _ :: _ => Or.inl rfl
  | _ :: _, [] => Or.inr (Or.inl rfl)
  | a :: as, b :: bs => by
    rcases Nat.lt_trichotomy a.toNat b.toNat with h | h | h
    · left; simp [lexLtCh, h]
    · have hab : a = b := Char.ext (UInt32.ext h)
      rcases lexLtCh_trichotomy as bs with h' | h' | h'
      · left; simp [lexLtCh, h, h']
      · right; left; simp [lexLtCh, h.symm, h']
      · right; right; rw [hab, h']
    · right; left; simp [lexLtCh, h]

theorem lexLtCh_trans : ∀ (a b c : List Char),
    lexLtCh a b = true → lexLtCh b c = true → lexLtCh a c = true := by
  intro a
  induction a with
  | nil =>
    intro b c hab hbc
    cases b with
    | nil => simp [lexLtCh] at hab
    | cons bh bt =>
      cases c with
      | nil => simp [lexLtCh] at hbc
      | cons ch ct => rfl
  | cons ah as ih =>
    intro b c hab hbc
    cases b with
    | nil => simp [lexLtCh] at hab
    | cons bh bt =>
      cases c with
      | nil => simp [lexLtCh] at hbc
      | cons ch ct =>
        simp only [lexLtCh] at hab hbc ⊢
        by_cases h1 : ah.toNat < bh.toNat
        · by_cases h2 : bh.toNat < ch.toNat
          · rw [if_pos (by omega)]
          · rw [if_neg h2] at hbc
            by_cases h3 : bh.toNat = ch.toNat
            · rw [if_pos (by omega)]
            · rw [if_neg h3] at hbc
              exact absurd hbc (by simp)
        · rw [if_neg h1] at hab
          by_cases h1' : ah.toNat = bh.toNat
          · rw [if_pos h1'] at hab
            by_cases h2 : bh.toNat < ch.toNat
            · rw [if_pos (by omega)]
            · rw [if_neg h2] at hbc
              by_cases h3 : bh.toNat = ch.toNat
              · rw [if_pos h3] at hbc
                rw [if_neg (by omega), if_pos (by omega)]
                exact ih bt ct hab hbc
              · rw [if_neg h3] at hbc
                exact absurd hbc (by simp)
          · rw [if_neg h1'] at hab
            exact absurd hab (by simp)

/-- The comparison `sorted(freq.items(), key=lambda kv: (-kv[1], kv[0]))`
sorts by: frequency descending, then token ascending.  `kwLe a b` holds
when `a` may come (weakly) before `b` under that key order. -/
def kwLe (a b : String × Nat) : Prop :=
  b.2 < a.2 ∨ (a.2 = b.2 ∧ (strLtB a.1 b.1 = true ∨ a.1 = b.1))

instance : DecidableRel kwLe := fun a b => by
  unfold kwLe; infer_instance

instance : IsTotal (String × Nat) kwLe := by
  constructor
  intro a b
  rcases Nat.lt_trichotomy a.2 b.2 with h | h | h
  · exact Or.inr (Or.inl h)
  · rcases lexLtCh_trichotomy a.1.data b.1.data with h' | h' | h'
    · exact Or.inl (Or.inr ⟨h, Or.inl h'⟩)
    · exact Or.inr (Or.inr ⟨h.symm, Or.inl h'⟩)
    · have : a.1 = b.1 := by
        cases ha : a.1; cases hb : b.1
        simp_all
      exact Or.inl (Or.inr ⟨h, Or.inr this⟩)
  · exact Or.inl (Or.inl h)

instance : IsTrans (String × Nat) kwLe := by
  constructor
  intro a b c hab hbc
  rcases hab with h1 | ⟨h1, h1'⟩
  · rcases hbc with h2 | ⟨h2, _⟩
    · exact Or.inl (h2.trans h1)
    · exact Or.inl (h2 ▸ h1)
  · rcases hbc with h2 | ⟨h2, h2'⟩
    · exact Or.inl (h1 ▸ h2)
    · refine Or.inr ⟨h1.trans h2, ?_⟩
      rcases h1' with hlt1 | heq1
      · rcases h2' with hlt2 | heq2
        · exact Or.inl (lexLtCh_trans _ _ _ hlt1 hlt2)
        · exact Or.inl (heq2 ▸ hlt1)
      · exact heq1 ▸ h2'

/-- `extract_keywords` of the source: frequency table of the tokens (in
first-occurrence order, as a Python dict), sorted by
`(-frequency, token)`, sliced to `max_k`, keeping the words. -/
def extractKeywords (text : String) (max_k : Int) : List String :=
  (pySlice max_k (List.insertionSort kwLe
    ((dedupFirst (pyTokens text)).map
      (fun w => (w, (pyTokens text).count w))))).map (fun p => p.1)

/-- A spec record; the only field the core reads is `text`
(`s.get('text', '')`, with absent `text` modelled as `""`). -/
structure Spec where
  text : String
deriving DecidableEq

/-- Python dict assignment `d[k] = v` on an insertion-ordered
association list: update in place if the key exists, else append. -/
def dictSet (d : List (String × String)) (k v : String) : List (String × String) :=
  match d with
  | [] => [(k, v)]
  | (k', v') :: rest =>
    if k' = k then (k, v) :: rest else (k', v') :: dictSet rest k v

/-- Python `d.get(k, default)`. -/
def dictGet (d : List (String × String)) (k default : String) : String :=
  match d.find? (fun kv => kv.1 = k) with
  | some kv => kv.2
  | none => default

/-- Python `d.values()` in insertion order. -/
def dictValues (d : List (String × String)) : List String :=
  d.map (fun kv => kv.2)

/-- The key-normalization step of `normalize_feedback_keys`: trim and
lowercase, then the ordered substring dispatch
cohesion / coverage / redundancy / practical (→ "practicality"),
falling back to the trimmed lowercased key. -/
def normKey (k : String) : String :=
  let lk := pyLower (pyStrip k)
  if strContains lk "cohesion" then "cohesion"
  else if strContains lk "coverage" then "coverage"
  else if strContains lk "redundancy" then "redundancy"
  else if strContains lk "practical" then "practicality"
  else lk

/-- `normalize_feedback_keys` of the source: fold the entries of the
feedback dict (in insertion order) into a fresh dict keyed by the
normalized key; a later entry overwrites an earlier one that normalizes
to the same facet. -/
def normalizeFeedbackKeys (comments : List (String × String)) : List (String × String) :=
  comments.foldl (fun out kv => dictSet out (normKey kv.1) kv.2) []

/-- The group-vocabulary accumulation of `_missing_profile_terms`
(`if group_specs:` is falsy for both `None` and `[]`); membership in
this list models membership in the Python `set`. -/
def groupTokens : Option (List Spec) → List String
  | none => []
  | some specs => specs.foldl (fun acc s => acc ++ pyTokens s.text) []

/-- `_missing_profile_terms` of the source. -/
def missingProfileTerms (group_specs : Option (List Spec))
    (domain_profile task_profile : String) (max_terms : Int) : List String :=
  let profile_tokens :=
    dedupFirst (extractKeywords domain_profile 32 ++ extractKeywords task_profile 32)
  let miss := profile_tokens.filter (fun t => !(groupTokens group_specs).contains t)
  pySlice max_terms miss

/-- The profile-keyword list of `build_retrieval_queries_from_feedback`
(lines `prof_kw = (...)[:8]; prof_kw = list(dict.fromkeys(prof_kw))`):
concatenate up to 6 domain and 6 task keywords, cap at 8, then
deduplicate. -/
def profKw (domain_profile task_profile : String) : List String :=
  dedupFirst ((extractKeywords domain_profile 6 ++ extractKeywords task_profile 6).take 8)

/-- The `GENERIC` set of the source, verbatim. -/
def GENERIC : List String :=
  ["spec", "specs", "some", "item", "items", "example", "examples",
   "policy", "policies", "requirement", "requirements"]

/-- The dedup/filter/cap loop at the end of
`build_retrieval_queries_from_feedback`: `seen` and `count` mirror the
`seen` set and `len(q_dedup)`; the cap check runs after an append. -/
def qFilter : List String → List String → Nat → Int → List String
  | [], _, _, _ => []
  | item :: rest, seen, count, maxq =>
    if pyStrip item = "" then qFilter rest seen count maxq
    else if pyTokens (pyStrip item) = [] then qFilter rest seen count maxq
    else if (pyTokens (pyStrip item)).all (fun t => GENERIC.contains t) then
      qFilter rest seen count maxq
    else if (pyTokens (pyStrip item)).length < 2 then qFilter rest seen count maxq
    else if pyStrip item ∈ seen then qFilter rest seen count maxq
    else if ((count + 1 : Nat) : Int) ≥ maxq then [pyStrip item]
    else pyStrip item :: qFilter rest (pyStrip item :: seen) (count + 1) maxq

/-- `build_retrieval_queries_from_feedback` of the source. -/
def buildRetrievalQueries (feedback : List (String × String))
    (domain_profile task_profile : String) (max_queries : Int)
    (group_specs : Option (List Spec)) : List String :=
  let norm := normalizeFeedbackKeys feedback
  let cov_kw := extractKeywords (dictGet norm "coverage" "") 4
  let red_kw := extractKeywords (dictGet norm "redundancy" "") 4
  let prac_kw := extractKeywords (dictGet norm "practicality" "") 4
  let coh_kw := extractKeywords (dictGet norm "cohesion" "") 4
  let prof_kw := profKw domain_profile task_profile
  let missing_terms := missingProfileTerms group_specs domain_profile task_profile 8
  let mix0 :=
    if cov_kw ≠ [] then cov_kw
    else if red_kw ≠ [] then red_kw
    else if prac_kw ≠ [] then prac_kw
    else if coh_kw ≠ [] then coh_kw
    else missing_terms
  let mix_src := if mix0 = [] then extractKeywords (joinSpace (dictValues norm)) 4 else mix0
  let q :=
    (cov_kw.take 2).flatMap
      (fun w => ["coverage gaps for " ++ w, "requirements to include " ++ w])
    ++ (red_kw.take 2).flatMap
      (fun w => ["deduplicate overlapping requirements " ++ w, "merge similar policies " ++ w])
    ++ (prac_kw.take 2).flatMap
      (fun w => ["practical constraints and feasibility " ++ w, "operational constraints " ++ w])
    ++ (coh_kw.take 2).flatMap
      (fun w => ["ensure group cohesion around " ++ w, "align terminology for " ++ w])
    ++ (missing_terms.take 4).flatMap
      (fun t => ["coverage missing " ++ t, "best practices for " ++ t])
    ++ (prof_kw.take 3).flatMap
      (fun a => (mix_src.take 2).map (fun b => a ++ " " ++ b ++ " requirements"))
  qFilter q [] 0 max_queries

/-- `_score_text_by_query_tokens` of the source: over the query's token
list (duplicates retained), count the tokens that occur as a substring
of the lowercased text. -/
def scoreTextByQueryTokens (text query : String) : Nat :=
  if text = "" ∨ query = "" then 0
  else (pyTokens query).countP (fun tok => tok ≠ "" && strContains (pyLower text) tok)

/-- The per-spec total in `select_specs_by_queries`:
`total += _score_text_by_query_tokens(txt, q)` over all queries. -/
def specTotalScore (queries : List String) (s : Spec) : Nat :=
  queries.foldl (fun total q => total + scoreTextByQueryTokens s.text q) 0

/-- The descending stable comparison of
`scored.sort(key=lambda x: x[0], reverse=True)`. -/
def scoreGe (a b : Nat × Spec) : Prop := b.1 ≤ a.1

instance : DecidableRel scoreGe := fun a b => by
  unfold scoreGe; infer_instance

instance : IsTotal (Nat × Spec) scoreGe :=
  ⟨fun a b => le_total b.1 a.1⟩

instance : IsTrans (Nat × Spec) scoreGe :=
  ⟨fun _ _ _ hab hbc => le_trans hbc hab⟩

/-- `select_specs_by_queries` of the source. -/
def selectSpecsByQueries (specs : List Spec) (queries : List String)
    (top_k : Int) : List Spec :=
  if specs = [] ∨ queries = [] then []
  else
    (pySlice top_k (List.insertionSort scoreGe (specs.filterMap (fun s =>
      if 0 < specTotalScore queries s
        then some (specTotalScore queries s, s) else none)))).map (fun p => p.2)

/-- The group-spec list denoted by an optional `group_specs` argument
(absent or empty both mean "no group"). -/
def optList : Option (List Spec) → List Spec
  | none => []
  | some l => l

/-- Modelled from the claim's words for C1: per query, each token counts
at most once ("at most once per query"), i.e. the query's token list is
deduplicated before counting substring hits. -/
def specTotalScoreClaim (queries : List String) (s : Spec) : Nat :=
  (queries.map (fun q =>
    (dedupFirst (pyTokens q)).countP (fun tok => strContains (pyLower s.text) tok))).sum

/-- Modelled from the claim's words for C8: deduplicate the concatenated
profile keywords first, then cap the result at 8 entries. -/
def profKwClaim (domain_profile task_profile : String) : List String :=
  (dedupFirst (extractKeywords domain_profile 6 ++ extractKeywords task_profile 6)).take 8

/-- Python `d.get(k)` as an `Option`, for stating dict lemmas. -/
def lookupDict (d : List (String × String)) (k : String) : Option String :=
  (d.find? (fun kv => kv.1 = k)).map (fun kv => kv.2)

/-! ### Helper lemmas: dedupFirst -/

theorem mem_dedupFirstAux {x : String} :
    ∀ {l seen : List String}, x ∈ dedupFirstAux seen l ↔ x ∈ l ∧ x ∉ seen := by
  intro l
  induction l with
  | nil => intro seen; simp [dedupFirstAux]
  | cons y ys ih =>
    intro seen
    by_cases hy : y ∈ seen
    · simp only [dedupFirstAux, if_pos hy, ih, List.mem_cons]
      constructor
      · rintro ⟨h1, h2⟩; exact ⟨Or.inr h1, h2⟩
      · rintro ⟨h1 | h1, h2⟩
        · exact absurd (h1 ▸ hy) h2
        · exact ⟨h1, h2⟩
    · simp only [dedupFirstAux, if_neg hy, List.mem_cons, ih]
      constructor
      · rintro (rfl | ⟨h1, h2⟩)
        · exact ⟨Or.inl rfl, hy⟩
        · exact ⟨Or.inr h1, fun hx => h2 (Or.inr hx)⟩
      · rintro ⟨rfl | h1, h2⟩
        · exact Or.inl rfl
        · by_cases hxy : x = y
          · exact Or.inl hxy
          · exact Or.inr ⟨h1, fun hx => hx.elim hxy h2⟩

theorem mem_dedupFirst {x : String} {l : List String} :
    x ∈ dedupFirst l ↔ x ∈ l := by
  simp [dedupFirst, mem_dedupFirstAux]

theorem nodup_dedupFirstAux :
    ∀ (l seen : List String), (dedupFirstAux seen l).Nodup := by
  intro l
  induction l with
  | nil => intro seen; simp [dedupFirstAux]
  | cons y ys ih =>
    intro seen
    by_cases hy : y ∈ seen
    · simpa [dedupFirstAux, if_pos hy] using ih seen
    · simp only [dedupFirstAux, if_neg hy, List.nodup_cons]
      refine ⟨fun hmem => ?_, ih (y :: seen)⟩
      exact (mem_dedupFirstAux.mp hmem).2 (List.mem_cons_self y seen)

theorem nodup_dedupFirst (l : List String) : (dedupFirst l).Nodup :=
  nodup_dedupFirstAux l []

theorem length_dedupFirstAux :
    ∀ (l seen : List String), (dedupFirstAux seen l).length ≤ l.length := by
  intro l
  induction l with
  | nil => intro seen; simp [dedupFirstAux]
  | cons y ys ih =>
    intro seen
    by_cases hy : y ∈ seen
    · simp only [dedupFirstAux, if_pos hy]
      exact le_trans (ih seen) (Nat.le_succ _)
    · simp only [dedupFirstAux, if_neg hy, List.length_cons]
      exact Nat.succ_le_succ (ih (y :: seen))

theorem length_dedupFirst (l : List String) : (dedupFirst l).length ≤ l.length :=
  length_dedupFirstAux l []

/-! ### Helper lemmas: tokens -/

theorem pyTokens_facts {s t : String} (h : t ∈ pyTokens s) :
    t ∉ STOP ∧ 2 ≤ t.length := by
  unfold pyTokens at h
  rcases List.mem_filter.mp h with ⟨-, hp⟩
  simp only [Bool.and_eq_true, Bool.not_eq_true'] at hp
  obtain ⟨⟨hstop, -⟩, hlen⟩ := hp
  constructor
  · intro hmem
    have hc : STOP.contains t = true := List.elem_iff.mpr hmem
    rw [hstop] at hc
    cases hc
  · have : ¬ t.length < 2 := by simpa using hlen
    omega

theorem pyTokens_ne_empty {s t : String} (h : t ∈ pyTokens s) : t ≠ "" := by
  intro he
  have := (pyTokens_facts h).2
  rw [he] at this
  simp [String.length] at this

/-! ### Helper lemmas: scoring -/

theorem foldl_add_eq_sum {α : Type} (f : α → Nat) :
    ∀ (l : List α) (a : Nat), l.foldl (fun t q => t + f q) a = a + (l.map f).sum := by
  intro l
  induction l with
  | nil => intro a; simp
  | cons x xs ih =>
    intro a
    simp only [List.foldl_cons, List.map_cons, List.sum_cons, ih (a + f x)]
    omega

theorem strContains_empty_of_ne {t : String} (h : t ≠ "") :
    strContains "" t = false := by
  unfold strContains isSubChars
  cases hd : t.data with
  | nil => exact absurd (by cases t; simp_all [String.ext_iff]) h
  | cons c cs => simp [hd, List.isEmpty]

theorem score_eq_countP (text q : String) :
    scoreTextByQueryTokens text q
      = (pyTokens q).countP (fun tok => strContains (pyLower text) tok) := by
  unfold scoreTextByQueryTokens
  by_cases ht : text = ""
  · subst ht
    rw [if_pos (Or.inl rfl)]
    have : pyLower "" = "" := rfl
    rw [this]
    symm
    rw [List.countP_eq_zero]
    intro tok hmem
    simp [strContains_empty_of_ne (pyTokens_ne_empty hmem)]
  · by_cases hq : q = ""
    · subst hq
      rw [if_pos (Or.inr rfl)]
      rfl
    · rw [if_neg (by tauto)]
      apply List.countP_congr
      intro tok hmem
      have hne : tok ≠ "" := pyTokens_ne_empty hmem
      simp [hne]

theorem specTotalScore_eq_sum (queries : List String) (s : Spec) :
    specTotalScore queries s
      = (queries.map (fun q =>
          (pyTokens q).countP (fun tok => strContains (pyLower s.text) tok))).sum := by
  unfold specTotalScore
  rw [foldl_add_eq_sum]
  simp only [Nat.zero_add]
  exact congrArg _ (List.map_congr_left (fun q _ => score_eq_countP s.text q))

/-! ### Helper lemmas: the query dedup/filter loop -/

theorem bool_ext {a b : Bool} (h : a = true ↔ b = true) : a = b := by
  cases a <;> cases b <;> simp_all

theorem contains_iff_mem {l : List String} {a : String} :
    l.contains a = true ↔ a ∈ l :=
  List.elem_iff

theorem qFilter_mem :
    ∀ (items seen : List String) (count : Nat) (m : Int) {q : String},
      q ∈ qFilter items seen count m →
      2 ≤ (pyTokens q).length
        ∧ (pyTokens q).all (fun t => GENERIC.contains t) = false
        ∧ q ∉ seen := by
  intro items
  induction items with
  | nil => intro seen count m q hq; simp [qFilter] at hq
  | cons item rest ih =>
    intro seen count m q hq
    rw [qFilter] at hq
    split_ifs at hq with h1 h2 h3 h4 h5 h6
    · exact ih seen count m hq
    · exact ih seen count m hq
    · exact ih seen count m hq
    · exact ih seen count m hq
    · exact ih seen count m hq
    · rcases List.mem_singleton.mp hq with rfl
      exact ⟨by omega, Bool.eq_false_iff.mpr h3, h5⟩
    · rcases List.mem_cons.mp hq with rfl | hq'
      · exact ⟨by omega, Bool.eq_false_iff.mpr h3, h5⟩
      · have := ih _ _ _ hq'
        exact ⟨this.1, this.2.1, fun hmem => this.2.2 (List.mem_cons_of_mem _ hmem)⟩

theorem qFilter_nodup :
    ∀ (items seen : List String) (count : Nat) (m : Int),
      (qFilter items seen count m).Nodup := by
  intro items
  induction items with
  | nil => intro seen count m; simp [qFilter]
  | cons item rest ih =>
    intro seen count m
    rw [qFilter]
    split_ifs with h1 h2 h3 h4 h5 h6
    · exact ih seen count m
    · exact ih seen count m
    · exact ih seen count m
    · exact ih seen count m
    · exact ih seen count m
    · simp
    · refine List.nodup_cons.mpr ⟨fun hmem => ?_, ih _ _ _⟩
      exact (qFilter_mem _ _ _ _ hmem).2.2 (List.mem_cons_self _ _)

theorem qFilter_length_le_one :
    ∀ (items seen : List String) (count : Nat) (m : Int), m ≤ 0 →
      (qFilter items seen count m).length ≤ 1 := by
  intro items
  induction items with
  | nil => intro seen count m _; simp [qFilter]
  | cons item rest ih =>
    intro seen count m hm
    rw [qFilter]
    split_ifs with h1 h2 h3 h4 h5 h6
    · exact ih seen count m hm
    · exact ih seen count m hm
    · exact ih seen count m hm
    · exact ih seen count m hm
    · exact ih seen count m hm
    · simp
    · exfalso
      apply h6
      have : (0 : Int) < ((count + 1 : Nat) : Int) := by positivity
      omega

/-! ### Helper lemmas: group tokens and slicing -/

theorem mem_foldl_append (f : Spec → List String) :
    ∀ (l : List Spec) (acc : List String) (x : String),
      (x ∈ l.foldl (fun a s => a ++ f s) acc ↔ x ∈ acc ∨ ∃ s ∈ l, x ∈ f s) := by
  intro l
  induction l with
  | nil => intro acc x; simp
  | cons y ys ih =>
    intro acc x
    simp only [List.foldl_cons, ih, List.mem_append, List.mem_cons]
    constructor
    · rintro ((h | h) | ⟨s, hs, hx⟩)
      · exact Or.inl h
      · exact Or.inr ⟨y, Or.inl rfl, h⟩
      · exact Or.inr ⟨s, Or.inr hs, hx⟩
    · rintro (h | ⟨s, rfl | hs, hx⟩)
      · exact Or.inl (Or.inl h)
      · exact Or.inl (Or.inr hx)
      · exact Or.inr ⟨s, hs, hx⟩

theorem mem_groupTokens {g : Option (List Spec)} {t : String} :
    t ∈ groupTokens g ↔ ∃ s ∈ optList g, t ∈ pyTokens s.text := by
  cases g with
  | none => simp [groupTokens, optList]
  | some l => simpa [groupTokens, optList] using mem_foldl_append (fun s => pyTokens s.text) l [] t

theorem pySlice_coe_nat {α : Type} (n : Nat) (l : List α) :
    pySlice (n : Int) l = l.take n := by
  unfold pySlice
  rw [if_neg (by omega), Int.toNat_ofNat]

/-! ### Helper lemmas: lowercasing and stripping are idempotent -/

theorem toNat_ofNat_valid (n : Nat) (h : n < 55296) : (Char.ofNat n).toNat = n := by
  unfold Char.ofNat
  rw [dif_pos (Or.inl h)]
  rfl

theorem toNat_lowerChar (c : Char) :
    (lowerChar c).toNat
      = if 65 ≤ c.toNat ∧ c.toNat ≤ 90 then c.toNat + 32 else c.toNat := by
  unfold lowerChar
  by_cases h : 65 ≤ c.toNat ∧ c.toNat ≤ 90
  · rw [if_pos h, if_pos h]
    exact toNat_ofNat_valid _ (by omega)
  · rw [if_neg h, if_neg h]

theorem lowerChar_eq_self {c : Char} (h : ¬(65 ≤ c.toNat ∧ c.toNat ≤ 90)) :
    lowerChar c = c := by
  unfold lowerChar
  rw [if_neg h]

theorem lowerChar_lowerChar (c : Char) : lowerChar (lowerChar c) = lowerChar c := by
  by_cases h : 65 ≤ c.toNat ∧ c.toNat ≤ 90
  · apply lowerChar_eq_self
    rw [toNat_lowerChar, if_pos h]
    omega
  · rw [lowerChar_eq_self h]
    exact lowerChar_eq_self h

theorem isSpace_lowerChar (c : Char) : isSpace (lowerChar c) = isSpace c := by
  by_cases h : 65 ≤ c.toNat ∧ c.toNat ≤ 90
  · unfold isSpace
    rw [toNat_lowerChar, if_pos h]
    apply bool_ext
    simp only [Bool.or_eq_true, beq_iff_eq]
    omega
  · rw [lowerChar_eq_self h]

theorem strMk_data (s : String) : String.mk s.data = s := by
  cases s
  rfl

theorem pyLower_pyLower (s : String) : pyLower (pyLower s) = pyLower s := by
  unfold pyLower
  refine congrArg String.mk ?_
  show (s.data.map lowerChar).map lowerChar = s.data.map lowerChar
  rw [List.map_map]
  exact List.map_congr_left (fun c _ => lowerChar_lowerChar c)

theorem dropWhile_eq_self_of_head {p : Char → Bool} {l : List Char}
    (h : ∀ c, l.head? = some c → p c = false) : l.dropWhile p = l := by
  cases l with
  | nil => rfl
  | cons a l => exact List.dropWhile_cons_of_neg (by simp [h a rfl])

theorem head_dropWhile_false (p : Char → Bool) (l : List Char) {c : Char}
    (h : (l.dropWhile p).head? = some c) : p c = false := by
  have hh := List.head?_dropWhile_not p l
  rw [h] at hh
  exact hh

theorem stripCh_noEdgeSpace (l : List Char) : noEdgeSpace (stripCh l) := by
  constructor
  · intro c hc
    unfold stripCh at hc
    rw [List.head?_reverse] at hc
    have hsuf : List.IsSuffix ((l.dropWhile isSpace).reverse.dropWhile isSpace)
        ((l.dropWhile isSpace).reverse) := List.dropWhile_suffix isSpace
    rcases hsuf with ⟨pre, hpre⟩
    have hrev : (l.dropWhile isSpace).reverse.getLast? = some c := by
      rw [← hpre, List.getLast?_append, hc]
      rfl
    rw [List.getLast?_reverse] at hrev
    exact head_dropWhile_false isSpace l hrev
  · intro c hc
    unfold stripCh at hc
    rw [List.getLast?_reverse] at hc
    exact head_dropWhile_false isSpace _ hc

theorem stripCh_of_noEdgeSpace {l : List Char} (h : noEdgeSpace l) :
    stripCh l = l := by
  unfold stripCh
  rw [dropWhile_eq_self_of_head h.1]
  rw [dropWhile_eq_self_of_head (fun c hc => h.2 c (by rwa [List.head?_reverse] at hc))]
  exact List.reverse_reverse l

theorem noEdgeSpace_map_lower {l : List Char} (h : noEdgeSpace l) :
    noEdgeSpace (l.map lowerChar) := by
  constructor
  · intro c hc
    rw [List.head?_map] at hc
    cases hh : l.head? with
    | none => rw [hh] at hc; cases hc
    | some d =>
      rw [hh] at hc
      simp only [Option.map_some', Option.some.injEq] at hc
      rw [← hc, isSpace_lowerChar]
      exact h.1 d hh
  · intro c hc
    rw [List.getLast?_map] at hc
    cases hh : l.getLast? with
    | none => rw [hh] at hc; cases hc
    | some d =>
      rw [hh] at hc
      simp only [Option.map_some', Option.some.injEq] at hc
      rw [← hc, isSpace_lowerChar]
      exact h.2 d hh

theorem pyStrip_pyLower_pyStrip (k : String) :
    pyStrip (pyLower (pyStrip k)) = pyLower (pyStrip k) :=
  congrArg String.mk
    (stripCh_of_noEdgeSpace (noEdgeSpace_map_lower (stripCh_noEdgeSpace k.data)))

/-- Re-normalizing an already normalized key is the identity. -/
theorem normKey_fix (k : String) : normKey (normKey k) = normKey k := by
  by_cases h1 : strContains (pyLower (pyStrip k)) "cohesion" = true
  · have hk : normKey k = "cohesion" := by unfold normKey; rw [if_pos h1]
    rw [hk]; decide
  · by_cases h2 : strContains (pyLower (pyStrip k)) "coverage" = true
    · have hk : normKey k = "coverage" := by unfold normKey; rw [if_neg h1, if_pos h2]
      rw [hk]; decide
    · by_cases h3 : strContains (pyLower (pyStrip k)) "redundancy" = true
      · have hk : normKey k = "redundancy" := by
          unfold normKey; rw [if_neg h1, if_neg h2, if_pos h3]
        rw [hk]; decide
      · by_cases h4 : strContains (pyLower (pyStrip k)) "practical" = true
        · have hk : normKey k = "practicality" := by
            unfold normKey; rw [if_neg h1, if_neg h2, if_neg h3, if_pos h4]
          rw [hk]; decide
        · have hk : normKey k = pyLower (pyStrip k) := by
            unfold normKey; rw [if_neg h1, if_neg h2, if_neg h3, if_neg h4]
          rw [hk]
          unfold normKey
          rw [pyStrip_pyLower_pyStrip, pyLower_pyLower]
          rw [if_neg h1, if_neg h2, if_neg h3, if_neg h4]

/-! ### Helper lemmas: insertion-ordered dicts -/

theorem mem_dictSet {d : List (String × String)} {k v : String}
    {kv : String × String} (h : kv ∈ dictSet d k v) : kv = (k, v) ∨ kv ∈ d := by
  induction d with
  | nil =>
    simp only [dictSet, List.mem_singleton] at h
    exact Or.inl h
  | cons hd tl ih =>
    unfold dictSet at h
    by_cases he : hd.1 = k
    · rw [if_pos he] at h
      rcases List.mem_cons.mp h with rfl | h'
      · exact Or.inl rfl
      · exact Or.inr (List.mem_cons_of_mem _ h')
    · rw [if_neg he] at h
      rcases List.mem_cons.mp h with rfl | h'
      · exact Or.inr (List.mem_cons_self _ _)
      · rcases ih h' with h'' | h''
        · exact Or.inl h''
        · exact Or.inr (List.mem_cons_of_mem _ h'')

theorem keys_dictSet (d : List (String × String)) (k v : String) :
    (dictSet d k v).map Prod.fst
      = if k ∈ d.map Prod.fst then d.map Prod.fst else d.map Prod.fst ++ [k] := by
  induction d with
  | nil => simp [dictSet]
  | cons hd tl ih =>
    unfold dictSet
    by_cases he : hd.1 = k
    · rw [if_pos he]
      rw [if_pos (by simp [he])]
      simp [he]
    · rw [if_neg he]
      by_cases hm : k ∈ tl.map Prod.fst
      · rw [if_pos (by simp [hm])]
        simp only [List.map_cons]
        rw [ih, if_pos hm]
      · rw [if_neg (by
          simp only [List.map_cons, List.mem_cons]
          rintro (h | h)
          · exact he h.symm
          · exact hm h)]
        simp only [List.map_cons]
        rw [ih, if_neg hm]
        rfl

theorem nodup_keys_dictSet {d : List (String × String)}
    (h : (d.map Prod.fst).Nodup) (k v : String) :
    ((dictSet d k v).map Prod.fst).Nodup := by
  rw [keys_dictSet]
  split
  · exact h
  · next hk =>
    simp only [List.nodup_append, List.nodup_cons, List.not_mem_nil,
      not_false_iff, List.nodup_nil, and_true, true_and]
    simp only [List.disjoint_singleton]
    exact ⟨h, hk⟩

theorem dictSet_append_of_not_mem {d : List (String × String)} {k : String}
    (h : k ∉ d.map Prod.fst) (v : String) : dictSet d k v = d ++ [(k, v)] := by
  induction d with
  | nil => rfl
  | cons hd tl ih =>
    unfold dictSet
    rw [if_neg (fun he => h (by simp [he]))]
    rw [ih (fun hm => h (by simp [hm]))]
    rfl

theorem normalize_aux_invariants :
    ∀ (f acc : List (String × String)),
      (acc.map Prod.fst).Nodup → (∀ kv ∈ acc, normKey kv.1 = kv.1) →
      ((f.foldl (fun out kv => dictSet out (normKey kv.1) kv.2) acc).map Prod.fst).Nodup
        ∧ ∀ kv ∈ f.foldl (fun out kv => dictSet out (normKey kv.1) kv.2) acc,
            normKey kv.1 = kv.1 := by
  intro f
  induction f with
  | nil => intro acc h1 h2; exact ⟨h1, h2⟩
  | cons kv0 rest ih =>
    intro acc h1 h2
    simp only [List.foldl_cons]
    apply ih
    · exact nodup_keys_dictSet h1 _ _
    · intro kv hkv
      rcases mem_dictSet hkv with rfl | h'
      · exact normKey_fix kv0.1
      · exact h2 kv h'

theorem normalize_invariants (f : List (String × String)) :
    ((normalizeFeedbackKeys f).map Prod.fst).Nodup
      ∧ ∀ kv ∈ normalizeFeedbackKeys f, normKey kv.1 = kv.1 :=
  normalize_aux_invariants f [] (by simp) (by simp)

theorem foldl_dictSet_self :
    ∀ (g acc : List (String × String)),
      (∀ kv ∈ g, normKey kv.1 = kv.1) → (g.map Prod.fst).Nodup →
      (∀ k ∈ g.map Prod.fst, k ∉ acc.map Prod.fst) →
      g.foldl (fun out kv => dictSet out (normKey kv.1) kv.2) acc = acc ++ g := by
  intro g
  induction g with
  | nil => intro acc _ _ _; simp
  | cons kv g ih =>
    intro acc hfix hnd hdisj
    simp only [List.foldl_cons]
    rw [hfix kv (List.mem_cons_self _ _)]
    rw [dictSet_append_of_not_mem (hdisj kv.1 (by simp)) kv.2]
    have hstep := ih (acc ++ [(kv.1, kv.2)])
      (fun kv' h' => hfix kv' (List.mem_cons_of_mem _ h'))
      ((List.nodup_cons.mp (by simpa using hnd)).2)
      (by
        intro k hk
        simp only [List.map_append, List.mem_append, List.map_cons,
          List.map_nil, List.mem_singleton]
        rintro (hka | hkk)
        · exact hdisj k (by simp [hk]) hka
        · have : kv.1 ∉ (g.map Prod.fst) := (List.nodup_cons.mp (by simpa using hnd)).1
          exact this (hkk ▸ hk))
    rw [hstep]
    simp

/-! ### Helper lemmas: stable descending sort of the scored specs -/

theorem filter_orderedInsert :
    ∀ (l : List (Nat × Spec)) (x : Nat × Spec) (v : Nat),
      (List.orderedInsert scoreGe x l).filter (fun p => p.1 = v)
        = if x.1 = v then x :: l.filter (fun p => p.1 = v)
          else l.filter (fun p => p.1 = v) := by
  intro l
  induction l with
  | nil =>
    intro x v
    by_cases hx : x.1 = v
    · rw [if_pos hx]
      simp [List.orderedInsert, hx]
    · rw [if_neg hx]
      simp [List.orderedInsert, hx]
  | cons b l ih =>
    intro x v
    unfold List.orderedInsert
    by_cases h : scoreGe x b
    · rw [if_pos h]
      by_cases hx : x.1 = v
      · rw [if_pos hx, List.filter_cons_of_pos (by simp [hx])]
      · rw [if_neg hx, List.filter_cons_of_neg (by simp [hx])]
    · rw [if_neg h]
      have hxb : x.1 < b.1 := by
        unfold scoreGe at h
        omega
      by_cases hb : b.1 = v
      · rw [List.filter_cons_of_pos (by simp [hb]), ih x v]
        have hx : ¬ x.1 = v := by omega
        rw [if_neg hx, if_neg hx, List.filter_cons_of_pos (by simp [hb])]
      · rw [List.filter_cons_of_neg (by simp [hb]), ih x v]
        by_cases hx : x.1 = v
        · rw [if_pos hx, if_pos hx, List.filter_cons_of_neg (by simp [hb])]
        · rw [if_neg hx, if_neg hx, List.filter_cons_of_neg (by simp [hb])]

theorem filter_insertionSort (v : Nat) :
    ∀ (l : List (Nat × Spec)),
      (List.insertionSort scoreGe l).filter (fun p => p.1 = v)
        = l.filter (fun p => p.1 = v) := by
  intro l
  induction l with
  | nil => rfl
  | cons b l ih =>
    rw [List.insertionSort, filter_orderedInsert]
    by_cases hb : b.1 = v
    · rw [if_pos hb, ih, List.filter_cons_of_pos (by simp [hb])]
    · rw [if_neg hb, ih, List.filter_cons_of_neg (by simp [hb])]

theorem mem_scored {specs : List Spec} {queries : List String} {p : Nat × Spec} :
    p ∈ specs.filterMap (fun s =>
        if 0 < specTotalScore queries s
          then some (specTotalScore queries s, s) else none)
      ↔ p.2 ∈ specs ∧ p.1 = specTotalScore queries p.2 ∧ 0 < p.1 := by
  rw [List.mem_filterMap]
  constructor
  · rintro ⟨s, hs, hf⟩
    by_cases h0 : 0 < specTotalScore queries s
    · rw [if_pos h0] at hf
      injection hf with hf
      subst hf
      exact ⟨hs, rfl, h0⟩
    · rw [if_neg h0] at hf
      cases hf
  · rintro ⟨hs, hT, h0⟩
    refine ⟨p.2, hs, ?_⟩
    rw [if_pos (hT ▸ h0), ← hT]

theorem scored_filter (specs : List Spec) (queries : List String) (v : Nat)
    (hv : 0 < v) :
    (specs.filterMap (fun s =>
        if 0 < specTotalScore queries s
          then some (specTotalScore queries s, s) else none)).filter
      (fun p => p.1 = v)
      = (specs.filter (fun s => specTotalScore queries s = v)).map
          (fun s => (v, s)) := by
  induction specs with
  | nil => rfl
  | cons s l ih =>
    rw [List.filterMap_cons]
    by_cases h0 : 0 < specTotalScore queries s
    · rw [if_pos h0]
      by_cases hT : specTotalScore queries s = v
      · rw [List.filter_cons_of_pos (by simp [hT]),
          List.filter_cons_of_pos (by simp [hT]), ih]
        rw [List.map_cons]
        rw [hT]
      · rw [List.filter_cons_of_neg (by simp [hT]),
          List.filter_cons_of_neg (by simp [hT]), ih]
    · rw [if_neg h0]
      have hT : ¬ specTotalScore queries s = v := by omega
      rw [List.filter_cons_of_neg (by simp [hT]), ih]

/-! ### Claim C2 -/

/-- C2: `select_specs_by_queries` never returns a spec whose total score
is 0; the output is ordered by total score descending; and within each
score value the output is a prefix of the input filtered to that score —
i.e. equal-score specs keep their relative input order (stable sort). -/
theorem claim2 (specs : List Spec) (queries : List String) (top_k : Int) :
    (∀ s ∈ selectSpecsByQueries specs queries top_k,
        specTotalScore queries s ≠ 0)
      ∧ (selectSpecsByQueries specs queries top_k).Pairwise
          (fun a b => specTotalScore queries b ≤ specTotalScore queries a)
      ∧ (∀ v : Nat, 0 < v →
          (selectSpecsByQueries specs queries top_k).filter
              (fun s => specTotalScore queries s = v)
            <+: specs.filter (fun s => specTotalScore queries s = v)) := by
  by_cases hcase : specs = [] ∨ queries = []
  · unfold selectSpecsByQueries
    rw [if_pos hcase]
    refine ⟨by simp, by simp, ?_⟩
    intro v _
    exact List.nil_prefix
  · have hout : selectSpecsByQueries specs queries top_k
        = (pySlice top_k (List.insertionSort scoreGe (specs.filterMap (fun s =>
            if 0 < specTotalScore queries s
              then some (specTotalScore queries s, s) else none)))).map
          (fun p => p.2) := by
      unfold selectSpecsByQueries
      rw [if_neg hcase]
    set scored := specs.filterMap (fun s =>
      if 0 < specTotalScore queries s
        then some (specTotalScore queries s, s) else none) with hscored
    set S := List.insertionSort scoreGe scored with hSdef
    obtain ⟨n, hn⟩ : ∃ n, pySlice top_k S = S.take n := by
      unfold pySlice
      by_cases hneg : top_k < 0
      · rw [if_pos hneg]
        exact ⟨_, rfl⟩
      · rw [if_neg hneg]
        exact ⟨_, rfl⟩
    rw [hout, hn]
    have hmemS : ∀ p ∈ S.take n,
        p.2 ∈ specs ∧ p.1 = specTotalScore queries p.2 ∧ 0 < p.1 := by
      intro p hp
      have hp' : p ∈ S := (List.take_sublist n S).subset hp
      have hp'' : p ∈ scored := (List.perm_insertionSort scoreGe scored).mem_iff.mp hp'
      exact mem_scored.mp hp''
    refine ⟨?_, ?_, ?_⟩
    · intro s hs
      rcases List.mem_map.mp hs with ⟨p, hp, rfl⟩
      have := hmemS p hp
      omega
    · apply List.pairwise_map.mpr
      have hsorted : S.Pairwise scoreGe := List.sorted_insertionSort scoreGe scored
      have htake : (S.take n).Pairwise scoreGe :=
        List.Pairwise.sublist (List.take_sublist n S) hsorted
      apply htake.imp_of_mem
      intro p q hp hq hge
      have hp2 := (hmemS p hp).2.1
      have hq2 := (hmemS q hq).2.1
      unfold scoreGe at hge
      omega
    · intro v hv
      rw [List.filter_map]
      have hcongr : (S.take n).filter ((fun s => specTotalScore queries s = v) ∘
            (fun p : Nat × Spec => p.2))
          = (S.take n).filter (fun p => p.1 = v) := by
        apply List.filter_congr
        intro p hp
        have := (hmemS p hp).2.1
        simp only [Function.comp]
        rw [← this]
      rw [hcongr]
      have hpre : (S.take n).filter (fun p => p.1 = v)
          <+: S.filter (fun p => p.1 = v) := by
        refine ⟨(S.drop n).filter (fun p => p.1 = v), ?_⟩
        rw [← List.filter_append, List.take_append_drop]
      have hSfilter : S.filter (fun p => p.1 = v)
          = (specs.filter (fun s => specTotalScore queries s = v)).map
              (fun s => (v, s)) := by
        rw [hSdef, filter_insertionSort, hscored]
        exact scored_filter specs queries v hv
      have hmapped := hpre.map (fun p : Nat × Spec => p.2)
      rw [hSfilter] at hmapped
      rw [List.map_map] at hmapped
      have : (specs.filter (fun s => specTotalScore queries s = v)).map
            ((fun p : Nat × Spec => p.2) ∘ (fun s => (v, s)))
          = specs.filter (fun s => specTotalScore queries s = v) := by
        rw [show ((fun p : Nat × Spec => p.2) ∘ (fun s => (v, s))) = id from rfl,
          List.map_id]
      rw [this] at hmapped
      exact hmapped

/-- C2, witness at a concrete input. -/
theorem claim2_witness :
    specTotalScore ["alpha beta"] ⟨"alpha"⟩ ≠ 0
      ∧ (selectSpecsByQueries [⟨"alpha"⟩] ["alpha beta"] 5).filter
            (fun s => specTotalScore ["alpha beta"] s = 1)
          <+: ([⟨"alpha"⟩] : List Spec).filter
            (fun s => specTotalScore ["alpha beta"] s = 1) :=
  ⟨(claim2 [⟨"alpha"⟩] ["alpha beta"] 5).1 ⟨"alpha"⟩ (by decide),
    (claim2 [⟨"alpha"⟩] ["alpha beta"] 5).2.2 1 (by decide)⟩

/-! ### Claim C1 -/

/-- C1, counterexample: the claim counts each token at most once per
query, but `_score_text_by_query_tokens` iterates over the query's token
list with duplicates retained, so the query `"alpha alpha"` scores 2
against the text `"alpha"` while the claim's formula gives 1. -/
theorem claim1_counterexample :
    specTotalScore ["alpha alpha"] ⟨"alpha"⟩ = 2
      ∧ specTotalScoreClaim ["alpha alpha"] ⟨"alpha"⟩ = 1
      ∧ specTotalScore ["alpha alpha"] ⟨"alpha"⟩
          ≠ specTotalScoreClaim ["alpha alpha"] ⟨"alpha"⟩ := by
  refine ⟨by decide, by decide, by decide⟩

/-- C1, amended: the total score `select_specs_by_queries` computes for a
spec equals the sum over all queries of the number of occurrences in the
query's token sequence of tokens appearing as a case-insensitive
substring of the spec's text (a token occurring many times in the text
counts once per query-token occurrence, but a token occurring several
times in the query counts once per occurrence). -/
theorem claim1_amended (queries : List String) (s : Spec) :
    specTotalScore queries s
      = (queries.map (fun q =>
          (pyTokens q).countP (fun tok => strContains (pyLower s.text) tok))).sum :=
  specTotalScore_eq_sum queries s

/-! ### Claim C3 -/

/-- C3, counterexample: with a zero cap, the query builder still returns
one query (the cap is only checked after an append), and with negative
caps `extract_keywords` and `select_specs_by_queries` return all but the
last `|cap|` entries (Python slice semantics), not the empty sequence. -/
theorem claim3_counterexample :
    buildRetrievalQueries [("coverage", "alpha beta")] "" "" 0 none
        = ["coverage gaps for alpha"]
      ∧ extractKeywords "alpha beta" (-1) = ["alpha"]
      ∧ selectSpecsByQueries [⟨"alpha"⟩, ⟨"beta"⟩] ["alpha", "beta"] (-1) = [⟨"alpha"⟩] := by
  refine ⟨by decide, by decide, by decide⟩

/-- C3, amended: none of the capped functions fails; `extract_keywords`
with `max_k = 0` and `select_specs_by_queries` with `top_k = 0` return
the empty sequence, and `build_retrieval_queries_from_feedback` with
`max_queries ≤ 0` returns at most one query (never more). -/
theorem claim3_amended :
    (∀ t : String, extractKeywords t 0 = [])
      ∧ (∀ (specs : List Spec) (queries : List String),
          selectSpecsByQueries specs queries 0 = [])
      ∧ (∀ (fb : List (String × String)) (d tp : String) (m : Int)
            (g : Option (List Spec)), m ≤ 0 →
          (buildRetrievalQueries fb d tp m g).length ≤ 1) := by
  refine ⟨?_, ?_, ?_⟩
  · intro t
    simp [extractKeywords, pySlice]
  · intro specs queries
    unfold selectSpecsByQueries
    split
    · rfl
    · simp [pySlice]
  · intro fb d tp m g hm
    exact qFilter_length_le_one _ _ _ _ hm

/-- C3, witness for the amended theorem at concrete inputs. -/
theorem claim3_witness :
    extractKeywords "alpha" 0 = []
      ∧ selectSpecsByQueries [⟨"alpha"⟩] ["alpha"] 0 = []
      ∧ (buildRetrievalQueries [("coverage", "alpha beta")] "" "" 0 none).length ≤ 1 :=
  ⟨claim3_amended.1 "alpha", claim3_amended.2.1 [⟨"alpha"⟩] ["alpha"],
    claim3_amended.2.2 [("coverage", "alpha beta")] "" "" 0 none (by decide)⟩

/-! ### Claims C5 and C9 -/

theorem lookupDict_cons (kv : String × String) (d : List (String × String))
    (k : String) :
    lookupDict (kv :: d) k = if kv.1 = k then some kv.2 else lookupDict d k := by
  unfold lookupDict
  by_cases h : kv.1 = k
  · rw [List.find?_cons_of_pos _ (by simp [h]), if_pos h]
    rfl
  · rw [List.find?_cons_of_neg _ (by simp [h]), if_neg h]

theorem lookupDict_dictSet (d : List (String × String)) (k v k' : String) :
    lookupDict (dictSet d k v) k' = if k = k' then some v else lookupDict d k' := by
  induction d with
  | nil =>
    show lookupDict [(k, v)] k' = _
    rw [lookupDict_cons]
  | cons hd tl ih =>
    unfold dictSet
    by_cases he : hd.1 = k
    · rw [if_pos he, lookupDict_cons, lookupDict_cons]
      by_cases hk : k = k'
      · simp [hk]
      · rw [if_neg hk]
        rw [if_neg (show ¬((k, v).1 = k') from hk)]
        rw [if_neg (fun h : hd.1 = k' => hk (by rw [← he]; exact h))]
    · rw [if_neg he, lookupDict_cons, lookupDict_cons]
      by_cases hh : hd.1 = k'
      · rw [if_pos hh, if_neg (fun h : k = k' => he (by rw [h]; exact hh)), if_pos hh]
      · rw [if_neg hh, if_neg hh, ih]

/-- C5: `normalize_feedback_keys` maps each raw key through trimming,
lowercasing and the ordered substring dispatch (`normKey`); for each
facet the surviving value is the one of the **last** input entry whose
key normalizes to that facet; and on the spec's concrete example the two
coverage variants collapse to the later value. -/
theorem claim5 :
    (∀ (f : List (String × String)) (key : String),
      lookupDict (normalizeFeedbackKeys f) key
        = (f.reverse.find? (fun kv => normKey kv.1 = key)).map (fun kv => kv.2))
      ∧ normalizeFeedbackKeys [("Coverage Notes", "x"), ("COVERAGE", "y")]
          = [("coverage", "y")] := by
  constructor
  · intro f key
    induction f using List.reverseRecOn with
    | nil => rfl
    | append_singleton l kv ih =>
      have hfold : normalizeFeedbackKeys (l ++ [kv])
          = dictSet (normalizeFeedbackKeys l) (normKey kv.1) kv.2 := by
        unfold normalizeFeedbackKeys
        rw [List.foldl_append]
        rfl
      rw [hfold, lookupDict_dictSet, List.reverse_append]
      simp only [List.reverse_singleton, List.singleton_append]
      by_cases h : normKey kv.1 = key
      · rw [if_pos h, List.find?_cons_of_pos _ (by simp [h])]
        rfl
      · rw [if_neg h, List.find?_cons_of_neg _ (by simp [h]), ih]
  · decide

/-- C9: `normalize_feedback_keys` is idempotent — applying it to its own
output (whose keys are all fixed points of the key-normalization) gives
the same mapping back. -/
theorem claim9 (f : List (String × String)) :
    normalizeFeedbackKeys (normalizeFeedbackKeys f) = normalizeFeedbackKeys f := by
  obtain ⟨hnd, hfix⟩ := normalize_invariants f
  have h := foldl_dictSet_self (normalizeFeedbackKeys f) [] hfix hnd (by simp)
  calc normalizeFeedbackKeys (normalizeFeedbackKeys f)
      = [] ++ normalizeFeedbackKeys f := h
    _ = normalizeFeedbackKeys f := by simp

/-! ### Claim C4 -/

/-- C4: `extract_keywords t k` (k ≥ 0) returns at most `k` entries, all
distinct, ordered by frequency in `t`'s tokenization descending, ties
broken by the token ascending in lexicographic (code point) order. -/
theorem claim4 (t : String) (k : Nat) :
    (extractKeywords t (k : Int)).length ≤ k
      ∧ (extractKeywords t (k : Int)).Nodup
      ∧ (extractKeywords t (k : Int)).Pairwise (fun a b =>
          (pyTokens t).count b < (pyTokens t).count a
            ∨ ((pyTokens t).count a = (pyTokens t).count b ∧ strLtB a b = true)) := by
  have hout : extractKeywords t (k : Int)
      = ((List.insertionSort kwLe
          ((dedupFirst (pyTokens t)).map
            (fun w => (w, (pyTokens t).count w)))).take k).map Prod.fst := by
    unfold extractKeywords
    rw [pySlice_coe_nat]
  set items := (dedupFirst (pyTokens t)).map
    (fun w => (w, (pyTokens t).count w)) with hitems
  set S := List.insertionSort kwLe items with hS
  have hmapfst : items.map Prod.fst = dedupFirst (pyTokens t) := by
    rw [hitems, List.map_map]
    rw [show (Prod.fst ∘ fun w => (w, (pyTokens t).count w)) = id from rfl, List.map_id]
  have hperm : List.Perm S items := List.perm_insertionSort kwLe items
  have hfstnodup : (S.map Prod.fst).Nodup := by
    have h1 : (items.map Prod.fst).Nodup := by
      rw [hmapfst]; exact nodup_dedupFirst _
    exact ((hperm.map Prod.fst).symm).nodup h1
  have hinv : ∀ p ∈ S, p.2 = (pyTokens t).count p.1 := by
    intro p hp
    have hp' : p ∈ items := hperm.mem_iff.mp hp
    rw [hitems] at hp'
    rcases List.mem_map.mp hp' with ⟨w, _, rfl⟩
    rfl
  refine ⟨?_, ?_, ?_⟩
  · rw [hout]
    simp only [List.length_map, List.length_take]
    omega
  · rw [hout, List.map_take]
    exact (List.take_sublist k (S.map Prod.fst)).nodup hfstnodup
  · rw [hout]
    apply List.pairwise_map.mpr
    have hsorted : S.Pairwise kwLe := List.sorted_insertionSort kwLe items
    have hnodupS : S.Nodup := by
      have : items.Nodup := List.Nodup.of_map Prod.fst
        (by rw [hmapfst]; exact nodup_dedupFirst _)
      exact (hperm.symm).nodup this
    have hcomb : S.Pairwise (fun p q => kwLe p q ∧ p ≠ q) := hsorted.and hnodupS
    have htake : (S.take k).Pairwise (fun p q => kwLe p q ∧ p ≠ q) :=
      List.Pairwise.sublist (List.take_sublist k S) hcomb
    apply htake.imp_of_mem
    intro p q hp hq ⟨hle, hne⟩
    have hp2 := hinv p ((List.take_sublist k S).subset hp)
    have hq2 := hinv q ((List.take_sublist k S).subset hq)
    rcases hle with hlt | ⟨heq, hstr⟩
    · left
      rw [← hp2, ← hq2]
      exact hlt
    · rcases hstr with hlt' | heqs
      · right
        rw [← hp2, ← hq2]
        exact ⟨heq.symm ▸ rfl, hlt'⟩
      · exfalso
        apply hne
        have : p.2 = q.2 := heq
        calc p = (p.1, p.2) := rfl
          _ = (q.1, q.2) := by rw [heqs, this]
          _ = q := rfl

/-! ### Claim C6 -/

/-- C6: the gap detector returns the first-occurrence deduplication of
(up to 32 domain-profile keywords followed by up to 32 task-profile
keywords), filtered to tokens occurring in no group spec's text (absent
or empty `group_specs` contributing no tokens), truncated to
`max_terms`; and on the spec's concrete example it returns `["gamma"]`. -/
theorem claim6 :
    (∀ (g : Option (List Spec)) (d tp : String) (m : Nat),
      missingProfileTerms g d tp (m : Int)
        = ((dedupFirst (extractKeywords d 32 ++ extractKeywords tp 32)).filter
            (fun t => (optList g).all (fun s => !((pyTokens s.text).contains t)))).take m)
      ∧ missingProfileTerms (some [⟨"alpha beta"⟩]) "alpha gamma" "" 8 = ["gamma"] := by
  constructor
  · intro g d tp m
    unfold missingProfileTerms
    rw [pySlice_coe_nat]
    congr 1
    apply List.filter_congr
    intro t _
    apply bool_ext
    simp only [Bool.not_eq_true', List.all_eq_true, Bool.not_eq_true]
    constructor
    · intro h s hs
      apply Bool.eq_false_iff.mpr
      intro hc
      rw [contains_iff_mem] at hc
      have hg : t ∈ groupTokens g := mem_groupTokens.mpr ⟨s, hs, hc⟩
      rw [← contains_iff_mem] at hg
      rw [hg] at h
      cases h
    · intro h
      apply Bool.eq_false_iff.mpr
      intro hc
      rw [contains_iff_mem] at hc
      rcases mem_groupTokens.mp hc with ⟨s, hs, hmem⟩
      have h2 := h s hs
      rw [← contains_iff_mem] at hmem
      rw [h2] at hmem
      cases hmem
  · decide

/-! ### Claim C7 -/

/-- C7: every string returned by the query builder tokenizes to at least
2 tokens and is not composed entirely of generic tokens, and the
returned sequence contains no duplicates. -/
theorem claim7 (fb : List (String × String)) (d tp : String) (m : Int)
    (g : Option (List Spec)) :
    (∀ q ∈ buildRetrievalQueries fb d tp m g,
        2 ≤ (pyTokens q).length
          ∧ (pyTokens q).all (fun t => GENERIC.contains t) = false)
      ∧ (buildRetrievalQueries fb d tp m g).Nodup := by
  constructor
  · intro q hq
    have := qFilter_mem _ _ _ _ hq
    exact ⟨this.1, this.2.1⟩
  · exact qFilter_nodup _ _ _ _

/-- C7, witness at a concrete input and member. -/
theorem claim7_witness :
    2 ≤ (pyTokens "coverage gaps for alpha").length
      ∧ (pyTokens "coverage gaps for alpha").all (fun t => GENERIC.contains t) = false :=
  (claim7 [("coverage", "alpha beta")] "" "" 8 none).1
    "coverage gaps for alpha" (by decide)

/-! ### Claim C8 -/

/-- C8, counterexample: the code caps the concatenated profile keywords
at 8 **before** deduplicating, while the claim deduplicates first and
caps afterwards; with 6 domain keywords and 6 task keywords overlapping
in two entries the two orders give different lists. -/
theorem claim8_counterexample :
    profKw "alpha bravo charlie delta echo foxtrot" "alpha bravo golf hotel india juliet"
        = ["alpha", "bravo", "charlie", "delta", "echo", "foxtrot"]
      ∧ profKwClaim "alpha bravo charlie delta echo foxtrot"
            "alpha bravo golf hotel india juliet"
          = ["alpha", "bravo", "charlie", "delta", "echo", "foxtrot", "golf", "hotel"]
      ∧ profKw "alpha bravo charlie delta echo foxtrot" "alpha bravo golf hotel india juliet"
          ≠ profKwClaim "alpha bravo charlie delta echo foxtrot"
              "alpha bravo golf hotel india juliet" := by
  refine ⟨by decide, by decide, by decide⟩

/-- C8, amended: the profile-keyword list equals the first-occurrence
deduplication of the concatenation truncated to its first 8 entries (the
8-cap applies before deduplication); in particular it has at most 8
entries and no duplicates. -/
theorem claim8_amended (d tp : String) :
    profKw d tp = dedupFirst ((extractKeywords d 6 ++ extractKeywords tp 6).take 8)
      ∧ (profKw d tp).length ≤ 8
      ∧ (profKw d tp).Nodup := by
  refine ⟨rfl, ?_, nodup_dedupFirst _⟩
  calc (profKw d tp).length
      ≤ ((extractKeywords d 6 ++ extractKeywords tp 6).take 8).length :=
        length_dedupFirst _
    _ ≤ 8 := by simp [List.length_take]

/-! ### Claim C10 -/

/-- C10: the generic-token set is contained in the stopword set, hence
no token the tokenizer produces is generic and the all-tokens-generic
rejection branch can never fire on a non-empty tokenization. -/
theorem claim10 :
    (∀ g ∈ GENERIC, g ∈ STOP)
      ∧ (∀ (s t : String), t ∈ pyTokens s → t ∉ GENERIC)
      ∧ (∀ s : String, pyTokens s ≠ [] →
          (pyTokens s).all (fun t => GENERIC.contains t) = false) := by
  have hsub : ∀ g ∈ GENERIC, g ∈ STOP := by decide
  have hnotgen : ∀ (s t : String), t ∈ pyTokens s → t ∉ GENERIC := by
    intro s t ht hmem
    exact (pyTokens_facts ht).1 (hsub t hmem)
  refine ⟨hsub, hnotgen, ?_⟩
  intro s hne
  rw [Bool.eq_false_iff]
  intro hall
  cases h : pyTokens s with
  | nil => exact hne h
  | cons t ts =>
    rw [h] at hall
    have := List.all_eq_true.mp hall t (List.mem_cons_self t ts)
    rw [contains_iff_mem] at this
    exact hnotgen s t (h ▸ List.mem_cons_self t ts) this

/-- C10, witness at a concrete input. -/
theorem claim10_witness :
    "alpha" ∉ GENERIC
      ∧ (pyTokens "alpha beta").all (fun t => GENERIC.contains t) = false :=
  ⟨claim10.2.1 "alpha beta" "alpha" (by decide), claim10.2.2 "alpha beta" (by decide)⟩

end RagUtils
